import Mathlib

/-!
Shallow embedding of the ranking / bounded-disclosure engine of `hmem.py`
(the V2 bulk-read selection, subtree capping, token accounting and tree
assembly), together with theorems settling the specification claims.

Modelling conventions, fixed once for the whole file:

* SQL rows are materialised records.  `NULL` text columns that the Python
  code only ever passes through falsy checks (`or ""`, `if not created`)
  are modelled as the empty string; `COALESCE`d numeric columns are `Nat`.
* The Python wall clock (`datetime.now`), ISO-timestamp parsing
  (`datetime.fromisoformat`, which raises on bad input) and `math.log2`
  are exogenous library calls; they are collected in a `TimeModel`
  parameter.  A failed parse is `none`.  Scores are modelled in `ℚ`.
* `children_map` is a dict built by appending every row of `memory_nodes`
  (in list order) to the bucket of its `parent_id`; lookups use
  `.get(key, [])`.  This is exactly `fun pid => nodes.filter
  (·.parent_id = pid)` over the flat row list, which is how it appears
  below.
* Python's `sorted(xs, key=k, reverse=True)` is a stable sort placing
  larger keys first.  A stable sort is uniquely determined by the key
  order, so it is embedded as `List.insertionSort` with the relation
  `fun a b => k b ≤ k a` (Mathlib's `orderedInsert` inserts `a` before
  the first `b` with `a ≼ b`, which preserves the original order of
  equal keys, exactly like Python).
* The Python tree-building and subtree-token recursions have no
  termination guard (they diverge on a cyclic `parent_id` graph), so the
  embedded functions take a fuel parameter; on an acyclic snapshot any
  fuel at least the node depth computes the Python value.
-/

namespace Hmem

/-- A root row of the `memories` table as loaded by `load_all_data`
(`SELECT id, prefix, seq, title, level_1, created_at, min_role,
COALESCE(favorite,0), COALESCE(access_count,0), COALESCE(obsolete,0)`).
The `prefix` column is named `pfx` because `prefix` is a Lean keyword. -/
structure Entry where
  id : String
  pfx : String
  seq : Int
  title : Option String
  level_1 : String
  created_at : String
  min_role : String
  favorite : Bool
  access_count : Nat
  obsolete : Bool
deriving DecidableEq

/-- A row of the `memory_nodes` table (`SELECT * ... ORDER BY parent_id, seq`);
only the columns the viewer reads are kept. -/
structure MNode where
  id : String
  parent_id : String
  seq : Int
  title : Option String
  content : String
  created_at : String
  access_count : Nat
deriving DecidableEq

/-- The exogenous library context of `weighted_access_score`: the current
UTC clock in epoch seconds (`datetime.now(timezone.utc)`), the ISO-8601
parser (`datetime.fromisoformat` after the `Z` replacement; `none` models
the raised `ValueError`), and `math.log2`. -/
structure TimeModel where
  now : ℚ
  parse : String → Option ℚ
  log2 : ℚ → ℚ

/-- The `bulkReadV2` configuration (`DEFAULT_V2_CONFIG`); §7 of the spec
lets the core assume the caps are validated non-negative integers. -/
structure V2Config where
  topAccessCount : Nat
  topNewestCount : Nat
  topObsoleteCount : Nat
deriving DecidableEq

/-- `weighted_access_score(entry)`: time-weighted access score
`access_count / log2(age_in_days + 2)`.  The Python function reads
`access_count` and `created_at` from a record or node dict (duck-typed);
callers below pass the corresponding fields.  Branches, in source order:
missing timestamp or zero count give `0.0`; a parse failure
(`except`) gives `float(access_count)`; otherwise the decayed score with
the age floored at `0`. -/
def weighted_access_score (M : TimeModel) (access_count : Nat) (created_at : String) : ℚ :=
  if created_at = "" ∨ access_count = 0 then 0
  else
    match M.parse created_at with
    | none => (access_count : ℚ)
    | some t => (access_count : ℚ) / M.log2 (max ((M.now - t) / 86400) 0 + 2)

/-- `estimate_tokens(text)`: `len(text) // 4 if text else 0` (the guard is
redundant: an empty string already yields `0`). -/
def estimate_tokens (text : String) : Nat :=
  text.length / 4

/-- The relation underlying `sorted(xs, key=k, reverse=True)`:
`a` may stay before `b` iff `k b ≤ k a`. -/
def keyRev {α : Type} {κ : Type} (key : α → κ) [LinearOrder κ] : α → α → Prop :=
  fun a b => key b ≤ key a

instance {α κ : Type} (key : α → κ) [LinearOrder κ] : DecidableRel (keyRev key) :=
  fun a b => inferInstanceAs (Decidable (key b ≤ key a))

instance {α κ : Type} (key : α → κ) [LinearOrder κ] : IsTotal α (keyRev key) :=
  ⟨fun a b => (le_total (key b) (key a)).elim Or.inl Or.inr⟩

instance {α κ : Type} (key : α → κ) [LinearOrder κ] : IsTrans α (keyRev key) :=
  ⟨fun _ _ _ h h' => le_trans h' h⟩

/-- Python's `sorted(xs, key=key, reverse=True)`: the unique stable sort
with larger keys first.  String keys are compared as `List Char`
(codepoint-lexicographic, exactly Python's string order). -/
def pySortDesc {α : Type} {κ : Type} [LinearOrder κ] (key : α → κ) (l : List α) : List α :=
  l.insertionSort (keyRev key)

/-- The relation underlying plain ascending `sorted(xs)`. -/
def keyAsc {α : Type} {κ : Type} (key : α → κ) [LinearOrder κ] : α → α → Prop :=
  fun a b => key a ≤ key b

instance {α κ : Type} (key : α → κ) [LinearOrder κ] : DecidableRel (keyAsc key) :=
  fun a b => inferInstanceAs (Decidable (key a ≤ key b))

/-- Python's ascending `sorted(xs, key=key)` (stable). -/
def pySortAsc {α : Type} {κ : Type} [LinearOrder κ] (key : α → κ) (l : List α) : List α :=
  l.insertionSort (keyAsc key)

/-- The in-memory `children_map` lookup `children_map.get(pid, [])`:
all `memory_nodes` rows whose `parent_id` is `pid`, in row order. -/
def childrenOf (nodes : List MNode) (pid : String) : List MNode :=
  nodes.filter (fun n => n.parent_id = pid)

/-- Keys of a Python dict built by grouping, in insertion order:
first occurrences, in order. -/
def firstKeys : List String → List String
  | [] => []
  | p :: l => p :: (firstKeys l).filter (fun q => q ≠ p)

/-- The iteration keys of `by_prefix` in `compute_v2_selection`. -/
def group_keys (active : List Entry) : List String :=
  firstKeys (active.map (fun e => e.pfx))

/-- The bucket `by_prefix[p]`: active entries of that prefix, in load order. -/
def group_entries (active : List Entry) (p : String) : List Entry :=
  active.filter (fun e => e.pfx = p)

/-- `sorted(entries, key=lambda e: e["created_at"] or "", reverse=True)[:n]`
(the "top N newest" channel; `created_at` is already `""` for NULL). -/
def newest_channel (n : Nat) (entries : List Entry) : List Entry :=
  (pySortDesc (fun e => e.created_at.toList) entries).take n

/-- `sorted([e for e in entries if e["access_count"] > 0],
key=weighted_access_score, reverse=True)[:m]` (the "top M most-accessed"
channel). -/
def accessed_channel (M : TimeModel) (m : Nat) (entries : List Entry) : List Entry :=
  (pySortDesc (fun e => weighted_access_score M e.access_count e.created_at)
    (entries.filter (fun e => 0 < e.access_count))).take m

/-- A Python loop `for e in l: s.add(e["id"])` over a set `s`.  The
selection sets are only ever read through membership tests, so a
duplicate-free id list is an exact model of the Python `set`. -/
def addIds (s : List String) (l : List Entry) : List String :=
  l.foldl (fun s e => s.insert e.id) s

/-- `compute_v2_selection(active, obsolete, v2_config)`: returns
`(expanded_ids, promoted_ids, visible_obsolete)`.  Per prefix bucket, the
top-newest ids are added to `expanded_ids`, the top-accessed ids to both
`expanded_ids` and `promoted_ids`; afterwards every favorite id is added
to `expanded_ids`; finally the obsolete records are ranked by score and
the first `topObsoleteCount` kept.  `select_step` is the body of the
per-prefix loop. -/
def select_step (M : TimeModel) (cfg : V2Config) (active : List Entry)
    (acc : List String × List String) (p : String) : List String × List String :=
  let entries := group_entries active p
  let acc1 := addIds acc.1 (newest_channel cfg.topNewestCount entries)
  let most_accessed := accessed_channel M cfg.topAccessCount entries
  (addIds acc1 most_accessed, addIds acc.2 most_accessed)

def compute_v2_selection (M : TimeModel) (active obsolete : List Entry) (cfg : V2Config) :
    List String × List String × List Entry :=
  let pair := (group_keys active).foldl (select_step M cfg active) ([], [])
  let expanded := addIds pair.1 (active.filter (fun e => e.favorite))
  let visible_obsolete :=
    (pySortDesc (fun e => weighted_access_score M e.access_count e.created_at) obsolete).take
      cfg.topObsoleteCount
  (expanded, pair.2, visible_obsolete)

/-- `count_all_tokens(active, obsolete, children_map)`: total tokens over
every entry body and, via `children_map.values()`, every node content.
Each node row lands in exactly one bucket of the dict, so iterating the
values visits the flat row list once. -/
def count_all_tokens (active obsolete : List Entry) (nodes : List MNode) : Nat :=
  ((active ++ obsolete).foldl (fun total e => total + estimate_tokens e.level_1) 0) +
    (nodes.foldl (fun total n => total + estimate_tokens n.content) 0)

/-- `_count_subtree_tokens(ns, children_map)`, with fuel for the unguarded
recursion (`if grandchildren` is redundant: recursing on `[]` adds `0`). -/
def count_subtree_tokens (fuel : Nat) (nodes : List MNode) (ns : List MNode) : Nat :=
  match fuel with
  | 0 => 0
  | fuel + 1 =>
    ns.foldl
      (fun total n =>
        total + (estimate_tokens n.content +
          count_subtree_tokens fuel nodes (childrenOf nodes n.id))) 0

/-- The id set of `sorted(children, key=created_at or "", reverse=True)[:topNewestCount]`
(a set comprehension; read only through membership, modelled as the id list). -/
def newest_sel_ids (cfg : V2Config) (children : List MNode) : List String :=
  ((pySortDesc (fun c => c.created_at.toList) children).take cfg.topNewestCount).map
    (fun c => c.id)

/-- The id set of the top `topAccessCount` children with positive
`access_count`, ranked by `weighted_access_score` descending. -/
def access_sel_ids (M : TimeModel) (cfg : V2Config) (children : List MNode) : List String :=
  ((pySortDesc (fun c => weighted_access_score M c.access_count c.created_at)
      (children.filter (fun c => 0 < c.access_count))).take cfg.topAccessCount).map
    (fun c => c.id)

/-- The V2 cap block that appears verbatim both in `add_entry_to_tree`
(lines 347-361) and in `count_shown_tokens` (lines 261-273): the children
whose id is in the union `newest_ids | access_ids`, in original order,
paired with the hidden count (only `add_entry_to_tree` uses the latter). -/
def cap_children (M : TimeModel) (cfg : V2Config) (children : List MNode) :
    List MNode × Nat :=
  let selected := children.filter
    (fun c => c.id ∈ newest_sel_ids cfg children ∨ c.id ∈ access_sel_ids M cfg children)
  (selected, children.length - selected.length)

/-- The children of one shown entry after the cap in `count_shown_tokens`:
capped only when a V2 config is given and the count exceeds
`topNewestCount` (the Python `children and` guard is subsumed:
`len > cap ≥ 0` forces non-emptiness). -/
def shown_children (M : TimeModel) (cfg? : Option V2Config) (nodes : List MNode)
    (e : Entry) : List MNode :=
  let children := childrenOf nodes e.id
  match cfg? with
  | none => children
  | some cfg =>
    if cfg.topNewestCount < children.length then (cap_children M cfg children).1
    else children

/-- `count_shown_tokens(shown_entries, children_map, v2_config)`: tokens of
every shown entry body plus its (capped) visible subtree. -/
def count_shown_tokens (M : TimeModel) (fuel : Nat) (cfg? : Option V2Config)
    (nodes : List MNode) (shown : List Entry) : Nat :=
  shown.foldl
    (fun total e =>
      total + (estimate_tokens e.level_1 +
        count_subtree_tokens fuel nodes (shown_children M cfg? nodes e))) 0

/-- The entry list `_build_v2_tree` passes to `count_shown_tokens`:
`v2_active + visible_obsolete`, where `v2_active` keeps the active rows
whose id was expanded. -/
def v2_shown (M : TimeModel) (active obsolete : List Entry) (cfg : V2Config) :
    List Entry :=
  let sel := compute_v2_selection M active obsolete cfg
  (active.filter (fun e => e.id ∈ sel.1)) ++ sel.2.2

/-- `str.find(pat)` on character lists: index of the first occurrence. -/
def findSub (pat : List Char) : List Char → Nat → Option Nat
  | [], i => if pat.isPrefixOf ([] : List Char) then some i else none
  | c :: t, i => if pat.isPrefixOf (c :: t) then some i else findSub pat t (i + 1)

/-- `auto_extract_title(text, max_len=30)` (only ever called with the
default length): the text before a `" — "` delimiter when that prefix is
non-empty and within the limit, else the text itself when short enough,
else the first 30 characters. -/
def auto_extract_title (text : String) : String :=
  if text = "" then ""
  else
    match findSub " — ".toList text.toList 0 with
    | some i =>
      if 0 < i ∧ i ≤ 30 then text.take i
      else if text.length ≤ 30 then text else text.take 30
    | none => if text.length ≤ 30 then text else text.take 30

/-- Python `a or b` for an optional string (`None` and `""` are falsy). -/
def pyOrStr (a : Option String) (b : String) : String :=
  match a with
  | none => b
  | some s => if s = "" then b else s

/-- `node_title(node)`: the DB title or an auto-extracted one. -/
def node_title (n : MNode) : String :=
  pyOrStr n.title (auto_extract_title n.content)

/-- `entry_title(entry)`. -/
def entry_title (e : Entry) : String :=
  pyOrStr e.title (auto_extract_title e.level_1)

/-- The label of a `memory_nodes` row in the tree: `[{id}] {title}`. -/
def node_label (n : MNode) : String :=
  "[" ++ n.id ++ "] " ++ node_title n

/-- `entry_label(entry, v2_mode)`.  `_promoted` is a per-view annotation
the Python code writes into the row dict before rendering; it is passed
here as the `promoted` argument. -/
def entry_label (e : Entry) (promoted : Bool) (v2_mode : Bool) : String :=
  let date := if e.created_at ≠ "" then e.created_at.take 10 else ""
  let mmdd := if date ≠ "" then date.drop 5 else ""
  let role_tag := if e.min_role ≠ "worker" then " [" ++ e.min_role ++ "+]" else ""
  let favorite_tag := if e.favorite then " [♥]" else ""
  let promoted_tag := if promoted then " [★]" else ""
  let obsolete_tag := if e.obsolete then " [!]" else ""
  let title := entry_title e
  if v2_mode then
    e.id ++ " " ++ mmdd ++ favorite_tag ++ promoted_tag ++ obsolete_tag ++ "  " ++ title
  else
    "[" ++ e.id ++ "] " ++ date ++ role_tag ++ favorite_tag ++ promoted_tag ++
      obsolete_tag ++ "  " ++ title

/-- The truncation marker `[+{hidden} more → {entry_id}]`. -/
def marker_label (hidden : Nat) (entry_id : String) : String :=
  "[+" ++ toString hidden ++ " more → " ++ entry_id ++ "]"

/-- The rendered tree: a Textual tree node is its label plus the children
added to it, a leaf is `add_leaf(label)`. -/
inductive VTree where
  | leaf : String → VTree
  | node : String → List VTree → VTree

/-- Whether a rendered tree is a plain leaf. -/
def VTree.isLeafNode : VTree → Bool
  | .leaf _ => true
  | .node _ _ => false

/-- The direct children of a rendered tree. -/
def VTree.children : VTree → List VTree
  | .leaf _ => []
  | .node _ cs => cs

/-- `add_node_to_tree(parent, node, children_map)`: recursively renders a
`memory_nodes` row and all of its children — no cap is ever applied at
this level.  Fuel models the unguarded recursion. -/
def add_node_to_tree (fuel : Nat) (nodes : List MNode) (n : MNode) : VTree :=
  match fuel with
  | 0 => VTree.leaf (node_label n)
  | fuel + 1 =>
    let children := childrenOf nodes n.id
    if children = [] then VTree.leaf (node_label n)
    else VTree.node (node_label n) (children.map (fun c => add_node_to_tree fuel nodes c))

/-- `add_entry_to_tree(parent, entry, children_map, v2_mode, v2_config)`:
renders a root entry; in V2 mode, when the direct children exceed
`topNewestCount` they are capped by `cap_children` and, if the capped list
is non-empty and something was hidden, a truncation marker leaf is
appended after the children. -/
def add_entry_to_tree (M : TimeModel) (fuel : Nat) (nodes : List MNode)
    (v2_mode : Bool) (cfg? : Option V2Config) (e : Entry) (promoted : Bool) : VTree :=
  let label := entry_label e promoted v2_mode
  let children := childrenOf nodes e.id
  let capped :=
    match cfg? with
    | some cfg =>
      if cfg.topNewestCount < children.length then cap_children M cfg children
      else (children, 0)
    | none => (children, 0)
  if capped.1 = [] then VTree.leaf label
  else
    VTree.node label
      ((capped.1.map (fun c => add_node_to_tree fuel nodes c)) ++
        (if 0 < capped.2 then [VTree.leaf (marker_label capped.2 e.id)] else []))

/-- The result of `rebuild_tree`, presentation formatting aside: either
the explicit empty view, or the grouped entry trees (prefix key paired
with its rendered entries) plus the obsolete section.  The root/group
label strings (`fmt_tokens`, config-file prefix labels) are render-only
and omitted. -/
inductive ViewResult where
  | emptyView : ViewResult
  | fullView : List (String × List VTree) → List VTree → ViewResult
  | v2View : List (String × List VTree) → List VTree → ViewResult

/-- `_build_full_tree`: every active entry, grouped by prefix (groups
iterated in `sorted(keys)` order), each rendered without a cap; the
global top-5 by score among positive `access_count` get the promoted
marker; all obsolete entries follow in their own section. -/
def build_full_tree (M : TimeModel) (fuel : Nat) (active obsolete : List Entry)
    (nodes : List MNode) : ViewResult :=
  let promoted_ids := addIds []
    ((pySortDesc (fun e => weighted_access_score M e.access_count e.created_at)
        (active.filter (fun e => 0 < e.access_count))).take 5)
  let keys := pySortAsc (fun p => p.toList) (group_keys active)
  ViewResult.fullView
    (keys.map (fun p =>
      (p, (group_entries active p).map (fun e =>
        add_entry_to_tree M fuel nodes false none e (e.id ∈ promoted_ids)))))
    (obsolete.map (fun e => add_entry_to_tree M fuel nodes false none e false))

/-- `_build_v2_tree`: the expanded active entries, grouped by prefix
(groups iterated in `sorted(keys)` order), rendered in V2 mode with the
cap; the visible obsolete entries follow, never promoted. -/
def build_v2_tree (M : TimeModel) (fuel : Nat) (cfg : V2Config)
    (active obsolete : List Entry) (nodes : List MNode) : ViewResult :=
  let sel := compute_v2_selection M active obsolete cfg
  let v2_active := active.filter (fun e => e.id ∈ sel.1)
  let keys := pySortAsc (fun p => p.toList) (group_keys v2_active)
  ViewResult.v2View
    (keys.map (fun p =>
      (p, (group_entries v2_active p).map (fun e =>
        add_entry_to_tree M fuel nodes true (some cfg) e (e.id ∈ sel.2.1)))))
    (sel.2.2.map (fun e => add_entry_to_tree M fuel nodes true (some cfg) e false))

/-- `rebuild_tree`: splits the loaded rows (`load_all_data` filters
`obsolete`), shows the explicit empty view when there are no rows at all —
no structural check of `memory_nodes` is ever made — and otherwise builds
the requested view. -/
def rebuild_tree (M : TimeModel) (fuel : Nat) (v2_mode : Bool) (cfg : V2Config)
    (rows : List Entry) (nodes : List MNode) : ViewResult :=
  let active := rows.filter (fun e => ¬ e.obsolete)
  let obsolete := rows.filter (fun e => e.obsolete)
  if active = [] ∧ obsolete = [] then ViewResult.emptyView
  else if v2_mode then build_v2_tree M fuel cfg active obsolete nodes
  else build_full_tree M fuel active obsolete nodes

/-! ### Supporting lemmas -/

theorem mem_addIds {x : String} {s : List String} {l : List Entry} :
    x ∈ addIds s l ↔ x ∈ s ∨ ∃ e ∈ l, e.id = x := by
  induction l generalizing s with
  | nil => simp [addIds]
  | cons e l ih =>
    simp only [addIds, List.foldl_cons] at *
    rw [ih]
    simp only [List.mem_insert_iff, List.mem_cons]
    constructor
    · rintro ((h | h) | ⟨e', he', rfl⟩)
      · exact Or.inr ⟨e, Or.inl rfl, h.symm⟩
      · exact Or.inl h
      · exact Or.inr ⟨e', Or.inr he', rfl⟩
    · rintro (h | ⟨e', (rfl | he'), rfl⟩)
      · exact Or.inl (Or.inr h)
      · exact Or.inl (Or.inl rfl)
      · exact Or.inr ⟨e', he', rfl⟩

/-- A fixed score context for concrete instances: clock at `0`, every
timestamp unparseable, degenerate `log2`. -/
def Mna : TimeModel := ⟨0, fun _ => none, fun _ => 1⟩

/-! ### C3 — scoring fallback for missing / unparseable timestamps -/

/-- C3, counterexample.  The claim says a record with `access_count > 0`
and a missing `created_at` gets the raw `access_count` as fallback; the
code returns `0.0` for a missing (empty) timestamp before ever trying to
parse it — here `access_count = 5` scores `0`, not `5`. -/
theorem c3_score_fallback_counterexample :
    weighted_access_score Mna 5 "" = 0 ∧ weighted_access_score Mna 5 "" ≠ (5 : ℚ) := by
  decide

/-- C3, amended.  For `access_count > 0` the scoring function returns `0`
when the timestamp is missing (empty), and falls back to the raw
`access_count` only when a non-empty timestamp fails to parse; it never
throws (it is a total function by construction). -/
theorem c3_score_fallback (M : TimeModel) (ac : Nat) (created : String) (hac : 0 < ac) :
    (created = "" → weighted_access_score M ac created = 0) ∧
    (created ≠ "" → M.parse created = none → weighted_access_score M ac created = (ac : ℚ)) := by
  constructor
  · intro h
    simp [weighted_access_score, h]
  · intro h hp
    unfold weighted_access_score
    rw [if_neg (by push_neg; exact ⟨h, by omega⟩), hp]

/-- C3 witness: the amended theorem applied at a concrete record. -/
theorem c3_score_fallback_witness :
    ("x" = "" → weighted_access_score Mna 5 "x" = 0) ∧
    ("x" ≠ "" → Mna.parse "x" = none → weighted_access_score Mna 5 "x" = (5 : ℚ)) :=
  c3_score_fallback Mna 5 "x" (by decide)

/-! ### C5 — favorites always visible -/

/-- C5.  Every active record with the favorite flag set has its id in
`expanded_ids` (the visible set), for every configuration — the favorites
loop runs after the capped channels and adds unconditionally. -/
theorem c5_favorites_visible (M : TimeModel) (active obsolete : List Entry)
    (cfg : V2Config) (e : Entry) (he : e ∈ active) (hf : e.favorite = true) :
    e.id ∈ (compute_v2_selection M active obsolete cfg).1 := by
  have hmem : e ∈ active.filter (fun e => e.favorite) :=
    List.mem_filter.mpr ⟨he, by simp [hf]⟩
  simp only [compute_v2_selection]
  exact mem_addIds.mpr (Or.inr ⟨e, hmem, rfl⟩)

/-- A favorite record used in concrete instances. -/
def favEntry : Entry :=
  ⟨"F1", "P", 1, none, "fav", "2024-01-01", "worker", true, 0, false⟩

/-- C5 witness: with `topNewest = topAccessed = 0` the favorite is still
selected. -/
theorem c5_favorites_visible_witness :
    favEntry.id ∈ (compute_v2_selection Mna [favEntry] [] ⟨0, 0, 0⟩).1 :=
  c5_favorites_visible Mna [favEntry] [] ⟨0, 0, 0⟩ favEntry (by decide) rfl

/-! ### C8 — determinism / idempotence of selection -/

/-- A rational stand-in for `math.log2`, exact at every argument at which
the concrete instances below evaluate it (powers of two). -/
def log2P (q : ℚ) : ℚ :=
  if q = 2 then 1 else if q = 4 then 2 else if q = 64 then 6 else if q = 128 then 7 else 0

/-- Epoch-second values of the two concrete ISO timestamps below
(`datetime.fromisoformat` succeeds on both). -/
def parseP (s : String) : Option ℚ :=
  if s = "1970-03-04T00:00:00Z" then some 5356800
  else if s = "1969-12-30T00:00:00Z" then some (-172800)
  else none

/-- First run: clock at epoch `0`. -/
def M8a : TimeModel := ⟨0, parseP, log2P⟩

/-- Second run, 124 days later, same parser and same `log2`. -/
def M8b : TimeModel := ⟨10713600, parseP, log2P⟩

/-- Created 62 days after epoch (in the future at the first run),
accessed 18 times. -/
def entA : Entry :=
  ⟨"A1", "P", 1, none, "", "1970-03-04T00:00:00Z", "worker", false, 18, false⟩

/-- Created 2 days before epoch, accessed 28 times. -/
def entB : Entry :=
  ⟨"B1", "P", 2, none, "", "1969-12-30T00:00:00Z", "worker", false, 28, false⟩

/-- C8, counterexample.  Selection is not a function of snapshot and
configuration alone: the score depends on `datetime.now()`, so two runs
of the very same code on the unchanged snapshot, 124 days apart (same
parser, same `log2`, only the clock advanced), select different
`visibleIds` — at epoch `0` record `A1` scores `18/log2(2) = 18` against
`B1`'s `28/log2(4) = 14` and wins the single top-accessed slot, while 124
days later the scores are `18/log2(64) = 3` against `28/log2(128) = 4`
and `B1` wins. -/
theorem c8_idempotence_counterexample :
    "A1" ∈ (compute_v2_selection M8a [entA, entB] [] ⟨1, 0, 0⟩).1 ∧
    "A1" ∉ (compute_v2_selection M8b [entA, entB] [] ⟨1, 0, 0⟩).1 := by
  have hAa : weighted_access_score M8a 18 "1970-03-04T00:00:00Z" = 18 := by
    unfold weighted_access_score M8a parseP; simp; norm_num [log2P]
  have hBa : weighted_access_score M8a 28 "1969-12-30T00:00:00Z" = 14 := by
    unfold weighted_access_score M8a parseP; simp; norm_num [log2P]
  have hAb : weighted_access_score M8b 18 "1970-03-04T00:00:00Z" = 3 := by
    unfold weighted_access_score M8b parseP; simp; norm_num [log2P]
  have hBb : weighted_access_score M8b 28 "1969-12-30T00:00:00Z" = 4 := by
    unfold weighted_access_score M8b parseP; simp; norm_num [log2P]
  constructor <;>
    norm_num [compute_v2_selection, select_step, group_keys, firstKeys, group_entries,
      newest_channel, accessed_channel, addIds, pySortDesc, keyRev, entA, entB,
      hAa, hBa, hAb, hBb, List.insertionSort, List.orderedInsert] <;>
    decide

/-- C8, amended.  Selection is a deterministic function of the snapshot,
the configuration and the scoring context: whenever two time models
assign every record the same score (in particular, two runs at the same
instant with the same libraries), the selection results coincide
exactly. -/
theorem c8_selection_deterministic (M₁ M₂ : TimeModel) (active obsolete : List Entry)
    (cfg : V2Config)
    (h : ∀ ac cr, weighted_access_score M₁ ac cr = weighted_access_score M₂ ac cr) :
    compute_v2_selection M₁ active obsolete cfg =
      compute_v2_selection M₂ active obsolete cfg := by
  have hf : (fun e : Entry => weighted_access_score M₁ e.access_count e.created_at) =
      (fun e : Entry => weighted_access_score M₂ e.access_count e.created_at) :=
    funext fun e => h e.access_count e.created_at
  have hstep : select_step M₁ cfg active = select_step M₂ cfg active := by
    funext acc p
    simp only [select_step, accessed_channel, hf]
  simp only [compute_v2_selection, hstep, hf]

/-- C8 witness: the amended theorem applied at a concrete snapshot and a
pair of score-agreeing models. -/
theorem c8_selection_deterministic_witness :
    compute_v2_selection Mna [entA, entB] [] ⟨1, 0, 0⟩ =
      compute_v2_selection ⟨0, fun _ => none, fun _ => 1⟩ [entA, entB] [] ⟨1, 0, 0⟩ :=
  c8_selection_deterministic Mna ⟨0, fun _ => none, fun _ => 1⟩ [entA, entB] [] ⟨1, 0, 0⟩
    (fun _ _ => rfl)

/-! ### C9 — monotonicity in `topNewest` -/

theorem take_subset_take_of_le {α : Type} {n m : Nat} (h : n ≤ m) (l : List α) :
    l.take n ⊆ l.take m := by
  intro x hx
  have : l.take n = (l.take m).take n := by
    rw [List.take_take, Nat.min_eq_left h]
  rw [this] at hx
  exact List.take_subset _ _ hx

theorem addIds_subset {s s' : List String} {l l' : List Entry}
    (hs : s ⊆ s') (hl : l ⊆ l') : addIds s l ⊆ addIds s' l' := by
  intro x hx
  rcases mem_addIds.mp hx with h | ⟨e, he, rfl⟩
  · exact mem_addIds.mpr (Or.inl (hs h))
  · exact mem_addIds.mpr (Or.inr ⟨e, hl he, rfl⟩)

theorem select_fold_subset (M : TimeModel) (active : List Entry) (c₁ c₂ : V2Config)
    (hn : c₁.topNewestCount ≤ c₂.topNewestCount) (ha : c₁.topAccessCount = c₂.topAccessCount)
    (keys : List String) (a₁ a₂ : List String × List String) (hacc : a₁.1 ⊆ a₂.1) :
    (keys.foldl (select_step M c₁ active) a₁).1 ⊆ (keys.foldl (select_step M c₂ active) a₂).1 := by
  induction keys generalizing a₁ a₂ with
  | nil => exact hacc
  | cons p keys ih =>
    simp only [List.foldl_cons]
    apply ih
    simp only [select_step, ha]
    exact addIds_subset
      (addIds_subset hacc (take_subset_take_of_le hn _)) (fun x h => h)

/-- C9.  Raising `topNewestCount` with the other caps fixed never shrinks
`expanded_ids`: the newest channel takes a longer prefix of the same
sorted list, and every other contribution is unchanged. -/
theorem c9_topNewest_monotone (M : TimeModel) (active obsolete : List Entry)
    (c₁ c₂ : V2Config) (hn : c₁.topNewestCount ≤ c₂.topNewestCount)
    (ha : c₁.topAccessCount = c₂.topAccessCount)
    (ho : c₁.topObsoleteCount = c₂.topObsoleteCount) :
    (compute_v2_selection M active obsolete c₁).1 ⊆
      (compute_v2_selection M active obsolete c₂).1 := by
  simp only [compute_v2_selection]
  exact addIds_subset
    (select_fold_subset M active c₁ c₂ hn ha (group_keys active) ([], []) ([], [])
      (fun x h => h))
    (fun x h => h)

/-- C9 witness: the monotonicity theorem applied at a concrete snapshot
and the cap pair `1 ≤ 2`. -/
theorem c9_topNewest_monotone_witness :
    (compute_v2_selection Mna [favEntry] [] ⟨0, 1, 0⟩).1 ⊆
      (compute_v2_selection Mna [favEntry] [] ⟨0, 2, 0⟩).1 :=
  c9_topNewest_monotone Mna [favEntry] [] ⟨0, 1, 0⟩ ⟨0, 2, 0⟩ (by decide) rfl rfl

/-! ### C4 — per-category channel ranking and tie-breaking -/

/-- Two same-prefix records with identical `created_at`; the sequence
numbers and load order follow the SQL `ORDER BY prefix, seq`. -/
def ent1 : Entry := ⟨"T1", "T", 1, none, "", "2024-01-01", "worker", false, 0, false⟩

/-- The later-sequence twin of `ent1`. -/
def ent2 : Entry := ⟨"T2", "T", 2, none, "", "2024-01-01", "worker", false, 0, false⟩

/-- C4, counterexample.  The newest channel does not break `created_at`
ties by higher sequence number: Python's sort is stable, so on a tie the
record that comes first in load order (the lower sequence number) wins
the slot.  With `topNewest = 1` and two records sharing a timestamp, the
selected id is `T1` (seq 1), not `T2` (seq 2) as the claim requires. -/
theorem c4_tiebreak_counterexample :
    "T1" ∈ (compute_v2_selection Mna [ent1, ent2] [] ⟨0, 1, 0⟩).1 ∧
    "T2" ∉ (compute_v2_selection Mna [ent1, ent2] [] ⟨0, 1, 0⟩).1 ∧
    ent1.seq < ent2.seq ∧ ent1.created_at = ent2.created_at := by
  decide

theorem filter_key_orderedInsert_of_ne {α κ : Type} [LinearOrder κ] [DecidableEq κ]
    (key : α → κ) (k : κ) (a : α) (ha : ¬ key a = k) (t : List α) :
    (t.orderedInsert (keyRev key) a).filter (fun x => key x = k) =
      t.filter (fun x => key x = k) := by
  rw [List.orderedInsert_eq_take_drop, List.filter_append]
  have : (a :: t.dropWhile fun b => ¬ keyRev key a b).filter (fun x => key x = k) =
      (t.dropWhile fun b => ¬ keyRev key a b).filter (fun x => key x = k) := by
    simp [List.filter_cons, ha]
  rw [this, ← List.filter_append, List.takeWhile_append_dropWhile]

theorem filter_key_orderedInsert_of_eq {α κ : Type} [LinearOrder κ] [DecidableEq κ]
    (key : α → κ) (k : κ) (a : α) (ha : key a = k) (t : List α) :
    (t.orderedInsert (keyRev key) a).filter (fun x => key x = k) =
      a :: t.filter (fun x => key x = k) := by
  rw [List.orderedInsert_eq_take_drop, List.filter_append]
  have htw : (t.takeWhile fun b => ¬ keyRev key a b).filter (fun x => key x = k) = [] := by
    rw [List.filter_eq_nil_iff]
    intro x hx
    have hpx := List.mem_takeWhile_imp hx
    have hlt : key a < key x := by
      have : ¬ key x ≤ key a := by simpa [keyRev] using hpx
      exact not_le.mp this
    simp only [decide_eq_true_eq]
    intro hk
    exact absurd (hk.trans ha.symm) (ne_of_gt hlt)
  rw [htw]
  have hcons : (a :: t.dropWhile fun b => ¬ keyRev key a b).filter (fun x => key x = k) =
      a :: (t.dropWhile fun b => ¬ keyRev key a b).filter (fun x => key x = k) := by
    simp [List.filter_cons, ha]
  rw [hcons, List.nil_append]
  have : t.filter (fun x => key x = k) =
      (t.takeWhile fun b => ¬ keyRev key a b).filter (fun x => key x = k) ++
        (t.dropWhile fun b => ¬ keyRev key a b).filter (fun x => key x = k) := by
    rw [← List.filter_append, List.takeWhile_append_dropWhile]
  rw [this, htw, List.nil_append]

/-- Stability of the embedded Python sort, phrased per key class: the
records with any fixed key appear in the sorted output exactly in their
original order. -/
theorem filter_key_pySortDesc {α κ : Type} [LinearOrder κ] [DecidableEq κ]
    (key : α → κ) (k : κ) (l : List α) :
    (pySortDesc key l).filter (fun x => key x = k) = l.filter (fun x => key x = k) := by
  induction l with
  | nil => rfl
  | cons a l ih =>
    have hdef : pySortDesc key (a :: l) = (pySortDesc key l).orderedInsert (keyRev key) a := rfl
    rw [hdef]
    by_cases ha : key a = k
    · rw [filter_key_orderedInsert_of_eq key k a ha, ih, List.filter_cons,
        if_pos (by simp [ha])]
    · rw [filter_key_orderedInsert_of_ne key k a ha, ih, List.filter_cons,
        if_neg (by simp [ha])]

/-- C4, amended.  On the code, each channel ranks exactly as claimed
except for the tie rule: ties are resolved by the stable sort, i.e. in
snapshot load order (ascending `seq` within the category), not by higher
sequence number, nor by higher `access_count` / ascending id.  Each
channel still selects exactly `min(available, cap)` records, never
dropping or duplicating on ties: the newest channel takes the first
`n` of the active records stably sorted by `created_at` descending, the
accessed channel the first `m` of the positive-`access_count` records
stably sorted by score descending; both keep ids distinct, and within
any class of tied keys the output order is the snapshot order. -/
theorem c4_channel_ranking (M : TimeModel) (g : List Entry) (n m : Nat)
    (hg : (g.map (fun e => e.id)).Nodup) :
    (newest_channel n g).length = min n g.length ∧
    ((newest_channel n g).map (fun e => e.id)).Nodup ∧
    (pySortDesc (fun e => e.created_at.toList) g).Pairwise
      (fun a b => b.created_at.toList ≤ a.created_at.toList) ∧
    (∀ k : List Char, (pySortDesc (fun e => e.created_at.toList) g).filter
        (fun e => e.created_at.toList = k) =
      g.filter (fun e => e.created_at.toList = k)) ∧
    (accessed_channel M m g).length =
      min m (g.filter (fun e => 0 < e.access_count)).length ∧
    ((accessed_channel M m g).map (fun e => e.id)).Nodup ∧
    (∀ q : ℚ, (pySortDesc (fun e => weighted_access_score M e.access_count e.created_at)
          (g.filter (fun e => 0 < e.access_count))).filter
        (fun e => weighted_access_score M e.access_count e.created_at = q) =
      (g.filter (fun e => 0 < e.access_count)).filter
        (fun e => weighted_access_score M e.access_count e.created_at = q)) := by
  refine ⟨?_, ?_, ?_, ?_, ?_, ?_, ?_⟩
  · rw [newest_channel, List.length_take, pySortDesc, List.length_insertionSort]
  · have hperm : List.Perm (pySortDesc (fun e : Entry => e.created_at.toList) g) g :=
      List.perm_insertionSort _ g
    have hnd : ((pySortDesc (fun e : Entry => e.created_at.toList) g).map
        (fun e => e.id)).Nodup :=
      (hperm.map (fun e => e.id)).nodup_iff.mpr hg
    exact hnd.sublist ((List.take_sublist _ _).map _)
  · exact List.sorted_insertionSort (keyRev (fun e : Entry => e.created_at.toList)) g
  · exact fun k => filter_key_pySortDesc (fun e : Entry => e.created_at.toList) k g
  · rw [accessed_channel, List.length_take, pySortDesc, List.length_insertionSort]
  · have hperm : List.Perm (pySortDesc (fun e : Entry => weighted_access_score M
        e.access_count e.created_at) (g.filter (fun e => 0 < e.access_count)))
        (g.filter (fun e => 0 < e.access_count)) :=
      List.perm_insertionSort _ _
    have hfil : ((g.filter (fun e => 0 < e.access_count)).map (fun e => e.id)).Nodup :=
      hg.sublist ((List.filter_sublist g).map _)
    have hnd := (hperm.map (fun e => e.id)).nodup_iff.mpr hfil
    exact hnd.sublist ((List.take_sublist _ _).map _)
  · exact fun q => filter_key_pySortDesc
      (fun e : Entry => weighted_access_score M e.access_count e.created_at) q _

/-- C4 witness: the amended channel theorem at a concrete two-record
category. -/
theorem c4_channel_ranking_witness :
    (newest_channel 1 [ent1, ent2]).length = min 1 [ent1, ent2].length ∧
    ((newest_channel 1 [ent1, ent2]).map (fun e => e.id)).Nodup ∧
    (pySortDesc (fun e => e.created_at.toList) [ent1, ent2]).Pairwise
      (fun a b => b.created_at.toList ≤ a.created_at.toList) ∧
    (∀ k : List Char, (pySortDesc (fun e => e.created_at.toList) [ent1, ent2]).filter
        (fun e => e.created_at.toList = k) =
      [ent1, ent2].filter (fun e => e.created_at.toList = k)) ∧
    (accessed_channel Mna 1 [ent1, ent2]).length =
      min 1 ([ent1, ent2].filter (fun e => 0 < e.access_count)).length ∧
    ((accessed_channel Mna 1 [ent1, ent2]).map (fun e => e.id)).Nodup ∧
    (∀ q : ℚ, (pySortDesc (fun e => weighted_access_score Mna e.access_count e.created_at)
          ([ent1, ent2].filter (fun e => 0 < e.access_count))).filter
        (fun e => weighted_access_score Mna e.access_count e.created_at = q) =
      ([ent1, ent2].filter (fun e => 0 < e.access_count)).filter
        (fun e => weighted_access_score Mna e.access_count e.created_at = q)) :=
  c4_channel_ranking Mna [ent1, ent2] 1 1 (by decide)

/-! ### C2 — capping is not recursive -/

/-- A root entry with two direct children, one of which has three
children of its own. -/
def entE : Entry := ⟨"E1", "P", 1, some "E", "body", "2024-01-03", "worker", false, 0, false⟩

/-- The newer direct child of `entE` (survives the cap). -/
def na : MNode := ⟨"a", "E1", 1, some "A", "", "2024-01-02", 0⟩

/-- The older direct child of `entE` (capped away). -/
def nb : MNode := ⟨"b", "E1", 2, some "B", "", "2024-01-01", 0⟩

/-- First grandchild, under `na`. -/
def nc : MNode := ⟨"c", "a", 1, some "C", "", "2024-01-01", 0⟩

/-- Second grandchild, under `na`. -/
def nd : MNode := ⟨"d", "a", 2, some "D", "", "2024-01-01", 0⟩

/-- Third grandchild, under `na`. -/
def nf : MNode := ⟨"f", "a", 3, some "F", "", "2024-01-01", 0⟩

/-- The node rows of the C2 snapshot. -/
def c2nodes : List MNode := [na, nb, nc, nd, nf]

/-- C2, counterexample.  With `topNewest = 1, topAccessed = 0` the root
entry's two children are capped to one, but the surviving child `a` shows
all three of its own children — the cap is not applied recursively at
depth ≥ 2, although `3 > topNewest + topAccessed = 1`. -/
theorem c2_recursive_cap_counterexample :
    add_entry_to_tree Mna 2 c2nodes true (some ⟨0, 1, 0⟩) entE false =
      VTree.node "E1 01-03  E"
        [VTree.node "[a] A"
          [VTree.leaf "[c] C", VTree.leaf "[d] D", VTree.leaf "[f] F"],
         VTree.leaf "[+1 more → E1]"] ∧
    (childrenOf c2nodes "a").length = 3 ∧ 1 < 3 := by
  exact ⟨rfl, rfl, by decide⟩

/-- C2, amended.  Capping applies only to a root entry's direct children:
`add_node_to_tree`, which renders every node from depth 2 downwards,
takes no configuration and always displays all of a node's children. -/
theorem c2_no_recursive_cap (fuel : Nat) (nodes : List MNode) (n : MNode)
    (h : childrenOf nodes n.id ≠ []) :
    add_node_to_tree (fuel + 1) nodes n =
      VTree.node (node_label n)
        ((childrenOf nodes n.id).map (fun c => add_node_to_tree fuel nodes c)) ∧
    (VTree.children (add_node_to_tree (fuel + 1) nodes n)).length =
      (childrenOf nodes n.id).length := by
  constructor
  · simp [add_node_to_tree, h]
  · simp [add_node_to_tree, h, VTree.children]

/-- C2 witness: the uncapped rendering of node `a` and its three
children. -/
theorem c2_no_recursive_cap_witness :
    add_node_to_tree 2 c2nodes na =
      VTree.node (node_label na)
        ((childrenOf c2nodes na.id).map (fun c => add_node_to_tree 1 c2nodes c)) ∧
    (VTree.children (add_node_to_tree 2 c2nodes na)).length =
      (childrenOf c2nodes na.id).length :=
  c2_no_recursive_cap 1 c2nodes na (by decide)

/-! ### C6 — per-entry capping, hidden count and truncation marker -/

/-- A child of `nb`, so that in the C6 witness snapshot every direct
child of `entE` renders as an inner node (no label can collide with the
marker leaf). -/
def nh : MNode := ⟨"h", "b", 1, some "H", "", "2024-01-01", 0⟩

/-- Node rows for the C6 witness: `entE` has children `a` and `b`, each
with children of their own. -/
def c6bnodes : List MNode := [na, nb, nc, nd, nf, nh]

/-- A root entry with a single child, used to exercise the cap with
`topNewest = 0`. -/
def entF : Entry := ⟨"F1", "P", 2, some "F", "", "2024-01-01", "worker", false, 0, false⟩

/-- The lone child of `entF`. -/
def ng : MNode := ⟨"g", "F1", 1, some "G", "", "2024-01-01", 0⟩

/-- The node rows of the C6 snapshot. -/
def c6nodes : List MNode := [ng]

/-- C6, counterexample.  With `topNewest = topAccessed = 0` (a valid
"select nothing" configuration) and one child, `C = 1 > 0 = topNewest`
and `hiddenCount = 1 > 0`, yet no truncation marker appears: the capped
child list is empty, so the code renders the entry as a plain leaf with
no children at all. -/
theorem c6_missing_marker_counterexample :
    add_entry_to_tree Mna 1 c6nodes true (some ⟨0, 0, 0⟩) entF false =
      VTree.leaf (entry_label entF false true) ∧
    (cap_children Mna ⟨0, 0, 0⟩ (childrenOf c6nodes "F1")).2 = 1 ∧
    (childrenOf c6nodes "F1").length = 1 :=
  ⟨rfl, rfl, rfl⟩

/-- C6, amended.  For each root entry's direct children (deeper parents
are never capped, see C2): when `C ≤ topNewest` everything is visible and
no marker is produced; when `C > topNewest` the visible children are
exactly those whose id lies in the top-`topNewest`-newest or
top-`topAccessed`-accessed selections (in original order), hiddenCount
satisfies `|visible| + hiddenCount = C` (never negative), and whenever
`hiddenCount > 0` *and at least one child remains visible* the truncation
marker naming the entry appears exactly once, as the last child; if no
child survives the cap the entry renders as a leaf without a marker. -/
theorem c6_entry_cap (M : TimeModel) (fuel : Nat) (nodes : List MNode) (v2 : Bool)
    (cfg : V2Config) (e : Entry) (promoted : Bool)
    (hmark : ∀ c ∈ childrenOf nodes e.id, ∀ k,
      add_node_to_tree fuel nodes c ≠ VTree.leaf (marker_label k e.id)) :
    ((childrenOf nodes e.id).length ≤ cfg.topNewestCount →
      add_entry_to_tree M fuel nodes v2 (some cfg) e promoted =
        (if childrenOf nodes e.id = [] then VTree.leaf (entry_label e promoted v2)
         else VTree.node (entry_label e promoted v2)
           ((childrenOf nodes e.id).map (fun c => add_node_to_tree fuel nodes c)))) ∧
    (cfg.topNewestCount < (childrenOf nodes e.id).length →
      (cap_children M cfg (childrenOf nodes e.id)).1 =
        (childrenOf nodes e.id).filter
          (fun c => c.id ∈ newest_sel_ids cfg (childrenOf nodes e.id) ∨
            c.id ∈ access_sel_ids M cfg (childrenOf nodes e.id)) ∧
      (cap_children M cfg (childrenOf nodes e.id)).1.length +
          (cap_children M cfg (childrenOf nodes e.id)).2 =
        (childrenOf nodes e.id).length ∧
      ((cap_children M cfg (childrenOf nodes e.id)).1 = [] →
        add_entry_to_tree M fuel nodes v2 (some cfg) e promoted =
          VTree.leaf (entry_label e promoted v2)) ∧
      ((cap_children M cfg (childrenOf nodes e.id)).1 ≠ [] →
        0 < (cap_children M cfg (childrenOf nodes e.id)).2 →
        add_entry_to_tree M fuel nodes v2 (some cfg) e promoted =
          VTree.node (entry_label e promoted v2)
            ((cap_children M cfg (childrenOf nodes e.id)).1.map
                (fun c => add_node_to_tree fuel nodes c) ++
              [VTree.leaf (marker_label (cap_children M cfg (childrenOf nodes e.id)).2 e.id)]) ∧
        VTree.leaf (marker_label (cap_children M cfg (childrenOf nodes e.id)).2 e.id) ∉
          (cap_children M cfg (childrenOf nodes e.id)).1.map
            (fun c => add_node_to_tree fuel nodes c))) := by
  constructor
  · intro hle
    have hnotlt : ¬ cfg.topNewestCount < (childrenOf nodes e.id).length := not_lt.mpr hle
    by_cases hc : childrenOf nodes e.id = [] <;>
      simp [add_entry_to_tree, hnotlt, hc]
  · intro hlt
    refine ⟨rfl, ?_, ?_, ?_⟩
    · exact Nat.add_sub_cancel' (List.length_filter_le _ _)
    · intro h0
      simp [add_entry_to_tree, hlt, h0]
    · intro hne hpos
      constructor
      · simp [add_entry_to_tree, hlt, hne, hpos]
      · intro hmem
        rcases List.mem_map.mp hmem with ⟨c, hc, hceq⟩
        have hcc : c ∈ childrenOf nodes e.id := List.mem_filter.mp hc |>.1
        exact hmark c hcc _ hceq

/-- C6 witness: the amended cap theorem at the concrete snapshot where
`entE` has two children and `topNewest = 1` caps one away. -/
theorem c6_entry_cap_witness :
    (((childrenOf c6bnodes entE.id).length ≤ (⟨0, 1, 0⟩ : V2Config).topNewestCount →
      add_entry_to_tree Mna 2 c6bnodes true (some ⟨0, 1, 0⟩) entE false =
        (if childrenOf c6bnodes entE.id = [] then VTree.leaf (entry_label entE false true)
         else VTree.node (entry_label entE false true)
           ((childrenOf c6bnodes entE.id).map (fun c => add_node_to_tree 2 c6bnodes c)))) ∧
    ((⟨0, 1, 0⟩ : V2Config).topNewestCount < (childrenOf c6bnodes entE.id).length →
      (cap_children Mna ⟨0, 1, 0⟩ (childrenOf c6bnodes entE.id)).1 =
        (childrenOf c6bnodes entE.id).filter
          (fun c => c.id ∈ newest_sel_ids ⟨0, 1, 0⟩ (childrenOf c6bnodes entE.id) ∨
            c.id ∈ access_sel_ids Mna ⟨0, 1, 0⟩ (childrenOf c6bnodes entE.id)) ∧
      (cap_children Mna ⟨0, 1, 0⟩ (childrenOf c6bnodes entE.id)).1.length +
          (cap_children Mna ⟨0, 1, 0⟩ (childrenOf c6bnodes entE.id)).2 =
        (childrenOf c6bnodes entE.id).length ∧
      ((cap_children Mna ⟨0, 1, 0⟩ (childrenOf c6bnodes entE.id)).1 = [] →
        add_entry_to_tree Mna 2 c6bnodes true (some ⟨0, 1, 0⟩) entE false =
          VTree.leaf (entry_label entE false true)) ∧
      ((cap_children Mna ⟨0, 1, 0⟩ (childrenOf c6bnodes entE.id)).1 ≠ [] →
        0 < (cap_children Mna ⟨0, 1, 0⟩ (childrenOf c6bnodes entE.id)).2 →
        add_entry_to_tree Mna 2 c6bnodes true (some ⟨0, 1, 0⟩) entE false =
          VTree.node (entry_label entE false true)
            ((cap_children Mna ⟨0, 1, 0⟩ (childrenOf c6bnodes entE.id)).1.map
                (fun c => add_node_to_tree 2 c6bnodes c) ++
              [VTree.leaf (marker_label
                (cap_children Mna ⟨0, 1, 0⟩ (childrenOf c6bnodes entE.id)).2 entE.id)]) ∧
        VTree.leaf (marker_label
            (cap_children Mna ⟨0, 1, 0⟩ (childrenOf c6bnodes entE.id)).2 entE.id) ∉
          (cap_children Mna ⟨0, 1, 0⟩ (childrenOf c6bnodes entE.id)).1.map
            (fun c => add_node_to_tree 2 c6bnodes c)))) :=
  c6_entry_cap Mna 2 c6bnodes true ⟨0, 1, 0⟩ entE false (by
    intro c hc k h
    have hc' : c = na ∨ c = nb := by
      simpa [childrenOf, c6bnodes, na, nb, nc, nd, nf, nh, entE] using hc
    rcases hc' with rfl | rfl <;> exact Bool.noConfusion (congrArg VTree.isLeafNode h))

/-! ### C7 — no fatal reporting of structural-integrity violations -/

/-- A node whose `parent_id` matches no record id and no node id. -/
def orphanNode : MNode := ⟨"z", "nowhere", 1, none, "orphan content", "2024-01-01", 0⟩

/-- C7, counterexample.  A snapshot whose only content is a node with a
dangling `parent_id` — a structural-integrity violation — is rendered as
the ordinary empty view, bit-for-bit the same result as a genuinely empty
store: nothing is reported, fatally or otherwise. -/
theorem c7_fatal_integrity_counterexample :
    rebuild_tree Mna 1 true ⟨3, 5, 3⟩ [] [orphanNode] = ViewResult.emptyView ∧
    rebuild_tree Mna 1 true ⟨3, 5, 3⟩ [] [] = ViewResult.emptyView ∧
    orphanNode.parent_id ≠ orphanNode.id :=
  ⟨rfl, rfl, by decide⟩

/-- C7, amended.  The engine performs no structural-integrity check and
has no fatal condition at all: loading never inspects `parent_id`
validity, and a snapshot with no records is presented as the ordinary
empty view whatever (possibly corrupt) node rows accompany it. -/
theorem c7_no_integrity_check (M : TimeModel) (fuel : Nat) (v2_mode : Bool)
    (cfg : V2Config) (nodes : List MNode) :
    rebuild_tree M fuel v2_mode cfg [] nodes = ViewResult.emptyView := by
  simp [rebuild_tree]

/-! ### C10 — orphan nodes: counted in total, invisible, harmless -/

theorem foldl_add_eq_sum {α : Type} (g : α → Nat) (l : List α) (a : Nat) :
    l.foldl (fun t x => t + g x) a = a + (l.map g).sum := by
  induction l generalizing a with
  | nil => simp
  | cons x l ih => simp [ih, Nat.add_assoc]

theorem count_subtree_succ_sum (fuel : Nat) (nodes ns : List MNode) :
    count_subtree_tokens (fuel + 1) nodes ns =
      (ns.map (fun n => estimate_tokens n.content +
        count_subtree_tokens fuel nodes (childrenOf nodes n.id))).sum := by
  show ns.foldl _ 0 = _
  rw [foldl_add_eq_sum, Nat.zero_add]

theorem count_shown_eq_sum (M : TimeModel) (fuel : Nat) (cfg? : Option V2Config)
    (nodes : List MNode) (shown : List Entry) :
    count_shown_tokens M fuel cfg? nodes shown =
      (shown.map (fun e => estimate_tokens e.level_1 +
        count_subtree_tokens fuel nodes (shown_children M cfg? nodes e))).sum := by
  show shown.foldl _ 0 = _
  rw [foldl_add_eq_sum, Nat.zero_add]

theorem childrenOf_cons_orphan (pre post : List MNode) (orphan : MNode) (k : String)
    (hk : k ≠ orphan.parent_id) :
    childrenOf (pre ++ orphan :: post) k = childrenOf (pre ++ post) k := by
  have hd : (decide (orphan.parent_id = k)) = false :=
    decide_eq_false (fun h => hk h.symm)
  simp [childrenOf, List.filter_append, List.filter_cons, hd]

theorem mem_children_id_ne (pre post : List MNode) (orphan : MNode)
    (hnode : ∀ m ∈ pre ++ orphan :: post, m.id = orphan.parent_id → m = orphan)
    (k : String) (hk : k ≠ orphan.parent_id) {c : MNode}
    (hc : c ∈ childrenOf (pre ++ orphan :: post) k) : c.id ≠ orphan.parent_id := by
  have hcm := List.mem_filter.mp hc
  intro hid
  have hco : c = orphan := hnode c hcm.1 hid
  have hpk : c.parent_id = k := by simpa using hcm.2
  exact hk (by rw [← hpk, hco])

theorem add_node_orphan_inv (pre post : List MNode) (orphan : MNode)
    (hnode : ∀ m ∈ pre ++ orphan :: post, m.id = orphan.parent_id → m = orphan) :
    ∀ (fuel : Nat) (n : MNode), n.id ≠ orphan.parent_id →
      add_node_to_tree fuel (pre ++ orphan :: post) n =
        add_node_to_tree fuel (pre ++ post) n := by
  intro fuel
  induction fuel with
  | zero => intro n _; rfl
  | succ f ih =>
    intro n hn
    have hch := childrenOf_cons_orphan pre post orphan n.id hn
    have hmap : (childrenOf (pre ++ post) n.id).map
          (fun c => add_node_to_tree f (pre ++ orphan :: post) c) =
        (childrenOf (pre ++ post) n.id).map
          (fun c => add_node_to_tree f (pre ++ post) c) :=
      List.map_congr_left (fun c hc => ih c
        (mem_children_id_ne pre post orphan hnode n.id hn (by rw [hch]; exact hc)))
    simp only [add_node_to_tree, hch, hmap]

theorem count_subtree_orphan_inv (pre post : List MNode) (orphan : MNode)
    (hnode : ∀ m ∈ pre ++ orphan :: post, m.id = orphan.parent_id → m = orphan) :
    ∀ (fuel : Nat) (ns : List MNode), (∀ n ∈ ns, n.id ≠ orphan.parent_id) →
      (∀ n ∈ ns, n ∈ pre ++ orphan :: post) →
      count_subtree_tokens fuel (pre ++ orphan :: post) ns =
        count_subtree_tokens fuel (pre ++ post) ns := by
  intro fuel
  induction fuel with
  | zero => intro ns _ _; rfl
  | succ f ih =>
    intro ns hns _
    rw [count_subtree_succ_sum, count_subtree_succ_sum]
    congr 1
    apply List.map_congr_left
    intro n hn
    have hid := hns n hn
    have hch := childrenOf_cons_orphan pre post orphan n.id hid
    rw [hch]
    congr 1
    rw [← hch]
    exact ih (childrenOf (pre ++ orphan :: post) n.id)
      (fun c hc => mem_children_id_ne pre post orphan hnode n.id hid hc)
      (fun c hc => (List.mem_filter.mp hc).1)

theorem shown_children_subset (M : TimeModel) (cfg? : Option V2Config)
    (nodes : List MNode) (e : Entry) :
    ∀ c ∈ shown_children M cfg? nodes e, c ∈ childrenOf nodes e.id := by
  intro c hc
  match cfg? with
  | none => exact hc
  | some cfg =>
    simp only [shown_children] at hc
    by_cases hlt : cfg.topNewestCount < (childrenOf nodes e.id).length
    · rw [if_pos hlt] at hc
      exact (List.mem_filter.mp hc).1
    · rwa [if_neg hlt] at hc

theorem shown_children_orphan_inv (M : TimeModel) (cfg? : Option V2Config)
    (pre post : List MNode) (orphan : MNode) (e : Entry)
    (he : e.id ≠ orphan.parent_id) :
    shown_children M cfg? (pre ++ orphan :: post) e =
      shown_children M cfg? (pre ++ post) e := by
  simp only [shown_children, childrenOf_cons_orphan pre post orphan e.id he]

theorem count_shown_orphan_inv (M : TimeModel) (fuel : Nat) (cfg? : Option V2Config)
    (pre post : List MNode) (orphan : MNode)
    (hnode : ∀ m ∈ pre ++ orphan :: post, m.id = orphan.parent_id → m = orphan)
    (shown : List Entry) (hshown : ∀ e ∈ shown, e.id ≠ orphan.parent_id) :
    count_shown_tokens M fuel cfg? (pre ++ orphan :: post) shown =
      count_shown_tokens M fuel cfg? (pre ++ post) shown := by
  rw [count_shown_eq_sum, count_shown_eq_sum]
  congr 1
  apply List.map_congr_left
  intro e he
  have hide := hshown e he
  rw [shown_children_orphan_inv M cfg? pre post orphan e hide]
  congr 1
  rw [← shown_children_orphan_inv M cfg? pre post orphan e hide]
  exact count_subtree_orphan_inv pre post orphan hnode fuel _
    (fun c hc => mem_children_id_ne pre post orphan hnode e.id hide
      (shown_children_subset M cfg? _ e c hc))
    (fun c hc => (List.mem_filter.mp (shown_children_subset M cfg? _ e c hc)).1)

theorem add_entry_orphan_inv (M : TimeModel) (fuel : Nat) (pre post : List MNode)
    (orphan : MNode)
    (hnode : ∀ m ∈ pre ++ orphan :: post, m.id = orphan.parent_id → m = orphan)
    (v2_mode : Bool) (cfg? : Option V2Config) (e : Entry) (promoted : Bool)
    (he : e.id ≠ orphan.parent_id) :
    add_entry_to_tree M fuel (pre ++ orphan :: post) v2_mode cfg? e promoted =
      add_entry_to_tree M fuel (pre ++ post) v2_mode cfg? e promoted := by
  have hch := childrenOf_cons_orphan pre post orphan e.id he
  have hmap : ∀ sel : List MNode, (∀ c ∈ sel, c ∈ childrenOf (pre ++ orphan :: post) e.id) →
      sel.map (fun c => add_node_to_tree fuel (pre ++ orphan :: post) c) =
        sel.map (fun c => add_node_to_tree fuel (pre ++ post) c) := by
    intro sel hsel
    exact List.map_congr_left (fun c hc => add_node_orphan_inv pre post orphan hnode fuel c
      (mem_children_id_ne pre post orphan hnode e.id he (hsel c hc)))
  simp only [add_entry_to_tree, hch]
  match cfg? with
  | none =>
    rw [hmap (childrenOf (pre ++ post) e.id) (fun c hc => hch ▸ hc)]
  | some cfg =>
    by_cases hlt : cfg.topNewestCount < (childrenOf (pre ++ post) e.id).length
    · simp only [if_pos hlt]
      rw [hmap (cap_children M cfg (childrenOf (pre ++ post) e.id)).1
        (fun c hc => hch ▸ (List.mem_filter.mp hc).1)]
    · simp only [if_neg hlt]
      rw [hmap (childrenOf (pre ++ post) e.id) (fun c hc => hch ▸ hc)]

theorem vo_subset (M : TimeModel) (active obsolete : List Entry) (cfg : V2Config) :
    ∀ e ∈ (compute_v2_selection M active obsolete cfg).2.2, e ∈ obsolete := by
  intro e he
  simp only [compute_v2_selection] at he
  have := List.take_subset _ _ he
  exact (List.mem_insertionSort _).mp this

theorem build_full_orphan_inv (M : TimeModel) (fuel : Nat)
    (active obsolete : List Entry) (pre post : List MNode) (orphan : MNode)
    (hrec : orphan.parent_id ∉ (active ++ obsolete).map (fun e => e.id))
    (hnode : ∀ m ∈ pre ++ orphan :: post, m.id = orphan.parent_id → m = orphan) :
    build_full_tree M fuel active obsolete (pre ++ orphan :: post) =
      build_full_tree M fuel active obsolete (pre ++ post) := by
  have hid : ∀ e ∈ active ++ obsolete, e.id ≠ orphan.parent_id := by
    intro e hmem heq
    exact hrec (List.mem_map.mpr ⟨e, hmem, heq⟩)
  simp only [build_full_tree]
  congr 1
  · apply List.map_congr_left
    intro p _
    congr 1
    apply List.map_congr_left
    intro e hme
    exact add_entry_orphan_inv M fuel pre post orphan hnode false none e _
      (hid e (List.mem_append.mpr (Or.inl (List.mem_filter.mp hme).1)))
  · apply List.map_congr_left
    intro e hme
    exact add_entry_orphan_inv M fuel pre post orphan hnode false none e false
      (hid e (List.mem_append.mpr (Or.inr hme)))

theorem build_v2_orphan_inv (M : TimeModel) (fuel : Nat) (cfg : V2Config)
    (active obsolete : List Entry) (pre post : List MNode) (orphan : MNode)
    (hrec : orphan.parent_id ∉ (active ++ obsolete).map (fun e => e.id))
    (hnode : ∀ m ∈ pre ++ orphan :: post, m.id = orphan.parent_id → m = orphan) :
    build_v2_tree M fuel cfg active obsolete (pre ++ orphan :: post) =
      build_v2_tree M fuel cfg active obsolete (pre ++ post) := by
  have hid : ∀ e ∈ active ++ obsolete, e.id ≠ orphan.parent_id := by
    intro e hmem heq
    exact hrec (List.mem_map.mpr ⟨e, hmem, heq⟩)
  simp only [build_v2_tree]
  congr 1
  · apply List.map_congr_left
    intro p _
    congr 1
    apply List.map_congr_left
    intro e hme
    exact add_entry_orphan_inv M fuel pre post orphan hnode true (some cfg) e _
      (hid e (List.mem_append.mpr (Or.inl (List.mem_filter.mp (List.mem_filter.mp hme).1).1)))
  · apply List.map_congr_left
    intro e hme
    exact add_entry_orphan_inv M fuel pre post orphan hnode true (some cfg) e false
      (hid e (List.mem_append.mpr (Or.inr (vo_subset M active obsolete cfg e hme))))

/-- C10.  For a snapshot containing an orphan node — one whose
`parent_id` matches no record id and no other node id — the orphan's
content is counted in `totalTokens`, yet removing the orphan changes
neither `shownTokens` nor the full view nor the budgeted view: the node
is never displayed and never counted as shown, and nothing fails (every
embedded function is total). -/
theorem c10_orphan_node (M : TimeModel) (fuel : Nat) (cfg : V2Config)
    (active obsolete : List Entry) (pre post : List MNode) (orphan : MNode)
    (hrec : orphan.parent_id ∉ (active ++ obsolete).map (fun e => e.id))
    (hnode : ∀ m ∈ pre ++ orphan :: post, m.id = orphan.parent_id → m = orphan) :
    count_all_tokens active obsolete (pre ++ orphan :: post) =
      count_all_tokens active obsolete (pre ++ post) + estimate_tokens orphan.content ∧
    count_shown_tokens M fuel (some cfg) (pre ++ orphan :: post)
        (v2_shown M active obsolete cfg) =
      count_shown_tokens M fuel (some cfg) (pre ++ post)
        (v2_shown M active obsolete cfg) ∧
    build_full_tree M fuel active obsolete (pre ++ orphan :: post) =
      build_full_tree M fuel active obsolete (pre ++ post) ∧
    build_v2_tree M fuel cfg active obsolete (pre ++ orphan :: post) =
      build_v2_tree M fuel cfg active obsolete (pre ++ post) := by
  have hid : ∀ e ∈ active ++ obsolete, e.id ≠ orphan.parent_id := by
    intro e hmem heq
    exact hrec (List.mem_map.mpr ⟨e, hmem, heq⟩)
  refine ⟨?_, ?_, ?_, ?_⟩
  · simp only [count_all_tokens]
    rw [foldl_add_eq_sum, foldl_add_eq_sum]
    rw [foldl_add_eq_sum]
    simp only [List.map_append, List.map_cons, List.sum_append, List.sum_cons]
    omega
  · apply count_shown_orphan_inv M fuel (some cfg) pre post orphan hnode
    intro e he
    simp only [v2_shown, List.mem_append] at he
    rcases he with he | he
    · exact hid e (List.mem_append.mpr (Or.inl (List.mem_filter.mp he).1))
    · exact hid e (List.mem_append.mpr (Or.inr (vo_subset M active obsolete cfg e he)))
  · exact build_full_orphan_inv M fuel active obsolete pre post orphan hrec hnode
  · exact build_v2_orphan_inv M fuel cfg active obsolete pre post orphan hrec hnode

/-- C10 witness: a concrete snapshot with one record, one attached node
and one orphan. -/
theorem c10_orphan_node_witness :
    count_all_tokens [entE] [] ([na] ++ orphanNode :: []) =
      count_all_tokens [entE] [] ([na] ++ []) + estimate_tokens orphanNode.content ∧
    count_shown_tokens Mna 2 (some ⟨3, 5, 3⟩) ([na] ++ orphanNode :: [])
        (v2_shown Mna [entE] [] ⟨3, 5, 3⟩) =
      count_shown_tokens Mna 2 (some ⟨3, 5, 3⟩) ([na] ++ [])
        (v2_shown Mna [entE] [] ⟨3, 5, 3⟩) ∧
    build_full_tree Mna 2 [entE] [] ([na] ++ orphanNode :: []) =
      build_full_tree Mna 2 [entE] [] ([na] ++ []) ∧
    build_v2_tree Mna 2 ⟨3, 5, 3⟩ [entE] [] ([na] ++ orphanNode :: []) =
      build_v2_tree Mna 2 ⟨3, 5, 3⟩ [entE] [] ([na] ++ []) :=
  c10_orphan_node Mna 2 ⟨3, 5, 3⟩ [entE] [] [na] [] orphanNode (by decide) (by decide)

/-! ### C1 — shownTokens vs totalTokens -/

/-- A fresh, newer record whose body estimates to one token. -/
def entH : Entry := ⟨"H1", "H", 1, none, "aaaa", "2024-01-02", "worker", false, 0, false⟩

/-- An older record whose three-character body estimates to zero
tokens. -/
def entZ : Entry := ⟨"H2", "H", 2, none, "abc", "2024-01-01", "worker", false, 0, false⟩

/-- C1, counterexample.  `shownTokens = totalTokens` does not imply that
nothing was hidden: with `topNewest = 1`, record `H2` is hidden, but its
three-character body estimates to `0` tokens (`3 // 4`), so both counts
are `1`. -/
theorem c1_equality_counterexample :
    count_shown_tokens Mna 1 (some ⟨0, 1, 0⟩) []
        (v2_shown Mna [entH, entZ] [] ⟨0, 1, 0⟩) =
      count_all_tokens [entH, entZ] [] [] ∧
    "H2" ∉ (compute_v2_selection Mna [entH, entZ] [] ⟨0, 1, 0⟩).1 := by
  decide

/-- The multiset of nodes visited by `_count_subtree_tokens`, fuel-level
by fuel-level (a proof artefact; `count_subtree_tokens` sums
`estimate_tokens` over it). -/
def visitF : Nat → List MNode → List MNode → List MNode
  | 0, _, _ => []
  | fuel + 1, nodes, ns =>
    ns.flatMap (fun n => n :: visitF fuel nodes (childrenOf nodes n.id))

theorem sum_map_add {α : Type} (f g : α → Nat) (l : List α) :
    (l.map (fun x => f x + g x)).sum = (l.map f).sum + (l.map g).sum := by
  induction l with
  | nil => rfl
  | cons x l ih => simp [ih]; omega

theorem sum_le_of_sublist {l₁ l₂ : List Nat} (h : List.Sublist l₁ l₂) :
    l₁.sum ≤ l₂.sum := by
  induction h with
  | slnil => exact Nat.le_refl 0
  | cons a h ih => simp only [List.sum_cons]; omega
  | cons₂ a h ih => simp only [List.sum_cons]; omega

theorem sum_le_of_subperm {l₁ l₂ : List Nat} (h : List.Subperm l₁ l₂) :
    l₁.sum ≤ l₂.sum := by
  rcases h with ⟨l, hperm, hsub⟩
  calc l₁.sum = l.sum := hperm.sum_eq.symm
    _ ≤ l₂.sum := sum_le_of_sublist hsub

theorem count_subtree_eq_visit (fuel : Nat) (nodes : List MNode) :
    ∀ ns, count_subtree_tokens fuel nodes ns =
      ((visitF fuel nodes ns).map (fun n => estimate_tokens n.content)).sum := by
  induction fuel with
  | zero => intro ns; rfl
  | succ f ih =>
    intro ns
    rw [count_subtree_succ_sum]
    induction ns with
    | nil => rfl
    | cons n ns ihn =>
      simp only [List.map_cons, List.sum_cons, visitF, List.flatMap_cons, List.map_append,
        List.sum_append]
      rw [ih (childrenOf nodes n.id), ihn]
      rfl

theorem count_subtree_mono (fuel : Nat) (nodes : List MNode) {s t : List MNode}
    (h : List.Sublist s t) :
    count_subtree_tokens fuel nodes s ≤ count_subtree_tokens fuel nodes t := by
  cases fuel with
  | zero => exact Nat.le_refl 0
  | succ f =>
    rw [count_subtree_succ_sum, count_subtree_succ_sum]
    exact sum_le_of_sublist (h.map _)

theorem shown_children_sublist (M : TimeModel) (cfg? : Option V2Config)
    (nodes : List MNode) (e : Entry) :
    List.Sublist (shown_children M cfg? nodes e) (childrenOf nodes e.id) := by
  match cfg? with
  | none => exact List.Sublist.refl _
  | some cfg =>
    simp only [shown_children]
    by_cases hlt : cfg.topNewestCount < (childrenOf nodes e.id).length
    · rw [if_pos hlt]
      exact List.filter_sublist _
    · rw [if_neg hlt]

/-- Strict descendance in the `parent_id` graph: `Reach nodes p n` holds
when following parent links upward from `n` reaches the key `p`. -/
inductive Reach (nodes : List MNode) : String → MNode → Prop where
  | direct {p : String} {n : MNode} : n ∈ nodes → n.parent_id = p → Reach nodes p n
  | step {p : String} {m n : MNode} : Reach nodes p m → n ∈ nodes → n.parent_id = m.id →
      Reach nodes p n

theorem Reach.mem_nodes {nodes : List MNode} {p : String} {n : MNode}
    (h : Reach nodes p n) : n ∈ nodes := by
  cases h with
  | direct hm _ => exact hm
  | step _ hm _ => exact hm

theorem mem_children_parent {nodes : List MNode} {p : String} {c : MNode}
    (hc : c ∈ childrenOf nodes p) : c ∈ nodes ∧ c.parent_id = p := by
  have h := List.mem_filter.mp hc
  exact ⟨h.1, by simpa using h.2⟩

theorem reach_children {nodes : List MNode} {p : String} {c : MNode}
    (hc : c ∈ childrenOf nodes p) : Reach nodes p c :=
  Reach.direct (mem_children_parent hc).1 (mem_children_parent hc).2

theorem reach_trans_child {nodes : List MNode} {p : String} {n c : MNode}
    (h : Reach nodes p n) (hc : c ∈ childrenOf nodes n.id) : Reach nodes p c :=
  Reach.step h (mem_children_parent hc).1 (mem_children_parent hc).2

theorem visit_mem_reach {nodes : List MNode} :
    ∀ (fuel : Nat) (ns : List MNode) (p : String),
      (∀ n ∈ ns, Reach nodes p n) → ∀ x ∈ visitF fuel nodes ns, Reach nodes p x := by
  intro fuel
  induction fuel with
  | zero => intro ns p _ x hx; simp [visitF] at hx
  | succ f ih =>
    intro ns p hns x hx
    simp only [visitF, List.mem_flatMap] at hx
    rcases hx with ⟨n, hn, hx⟩
    rcases List.mem_cons.mp hx with rfl | hx'
    · exact hns x hn
    · exact ih (childrenOf nodes n.id) p
        (fun c hc => reach_trans_child (hns n hn) hc) x hx'

theorem reach_rank {nodes : List MNode} (rank : String → Nat)
    (hrank : ∀ n ∈ nodes, rank n.parent_id < rank n.id) {p : String} {n : MNode}
    (h : Reach nodes p n) : rank p < rank n.id := by
  induction h with
  | direct hm hp => exact hp ▸ hrank _ hm
  | step _ hm hp ih => exact lt_trans ih (hp ▸ hrank _ hm)

theorem id_inj {nodes : List MNode} (hid : (nodes.map (fun n => n.id)).Nodup)
    {a b : MNode} (ha : a ∈ nodes) (hb : b ∈ nodes) (h : a.id = b.id) : a = b :=
  List.inj_on_of_nodup_map hid ha hb h

theorem reach_comparable {nodes : List MNode}
    (hid : (nodes.map (fun n => n.id)).Nodup) {a b : String} {m : MNode}
    (h1 : Reach nodes a m) :
    Reach nodes b m →
      a = b ∨ (∃ w, w ∈ nodes ∧ w.id = a ∧ Reach nodes b w) ∨
        (∃ w, w ∈ nodes ∧ w.id = b ∧ Reach nodes a w) := by
  induction h1 with
  | direct hm hp =>
    intro h2
    cases h2 with
    | direct hm' hp' => exact Or.inl (hp.symm.trans hp')
    | step h2' hm' hp' =>
      exact Or.inr (Or.inl ⟨_, h2'.mem_nodes, (hp.symm.trans hp').symm, h2'⟩)
  | step h1' hm hpar ih =>
    intro h2
    cases h2 with
    | direct hm' hp' =>
      exact Or.inr (Or.inr ⟨_, h1'.mem_nodes, hpar.symm.trans hp', h1'⟩)
    | step h2' hm' hpar' =>
      have hww := id_inj hid h2'.mem_nodes h1'.mem_nodes (hpar'.symm.trans hpar)
      rw [hww] at h2'
      exact ih h2'

theorem reach_sibling_false {nodes : List MNode} (rank : String → Nat)
    (hrank : ∀ n ∈ nodes, rank n.parent_id < rank n.id) {k : String} {c c' : MNode}
    (hc : c.parent_id = k) (hcn' : c' ∈ nodes) (hc' : c'.parent_id = k)
    (h : Reach nodes c'.id c) : False := by
  cases h with
  | direct hm hp =>
    have hloop : rank c'.parent_id < rank c'.id := hrank c' hcn'
    have heq : c'.id = k := hp.symm.trans hc
    rw [hc', ← heq] at hloop
    exact lt_irrefl _ hloop
  | step h' hm hp =>
    have hw := reach_rank rank hrank h'
    have heq : _ = k := hp.symm.trans hc
    have h2 : rank c'.parent_id < rank c'.id := hrank c' hcn'
    rw [hc', ← heq] at h2
    exact lt_irrefl _ (lt_trans hw h2)

theorem visit_nodup {nodes : List MNode} (rank : String → Nat)
    (hid : (nodes.map (fun n => n.id)).Nodup)
    (hrank : ∀ n ∈ nodes, rank n.parent_id < rank n.id) :
    ∀ (fuel : Nat) (k : String), (visitF fuel nodes (childrenOf nodes k)).Nodup := by
  intro fuel
  induction fuel with
  | zero => intro k; simp [visitF]
  | succ f ih =>
    intro k
    rw [show visitF (f + 1) nodes (childrenOf nodes k) =
      (childrenOf nodes k).flatMap
        (fun n => n :: visitF f nodes (childrenOf nodes n.id)) from rfl]
    rw [List.nodup_flatMap]
    constructor
    · intro c _
      rw [List.nodup_cons]
      refine ⟨?_, ih c.id⟩
      intro hmem
      have hr : Reach nodes c.id c :=
        visit_mem_reach f _ _ (fun n hn => reach_children hn) c hmem
      exact lt_irrefl _ (reach_rank rank hrank hr)
    · have hnodup_children : (childrenOf nodes k).Nodup :=
        (List.Nodup.of_map _ hid).filter _
      apply List.Pairwise.imp_of_mem ?_ hnodup_children
      intro c c' hcm hcm' hne x hx hx'
      have hcp := mem_children_parent hcm
      have hcp' := mem_children_parent hcm'
      rcases List.mem_cons.mp hx with rfl | hxv
      · rcases List.mem_cons.mp hx' with heq | hxv'
        · exact hne heq
        · exact reach_sibling_false rank hrank hcp.2 hcp'.1 hcp'.2
            (visit_mem_reach f _ _ (fun n hn => reach_children hn) x hxv')
      · have hrx : Reach nodes c.id x :=
          visit_mem_reach f _ _ (fun n hn => reach_children hn) x hxv
        rcases List.mem_cons.mp hx' with rfl | hxv'
        · exact reach_sibling_false rank hrank hcp'.2 hcp.1 hcp.2 hrx
        · have hrx' : Reach nodes c'.id x :=
            visit_mem_reach f _ _ (fun n hn => reach_children hn) x hxv'
          rcases reach_comparable hid hrx hrx' with heq | ⟨w, hw, hwid, hwr⟩ |
            ⟨w, hw, hwid, hwr⟩
          · exact hne (id_inj hid hcp.1 hcp'.1 heq)
          · have := id_inj hid hw hcp.1 hwid
            rw [this] at hwr
            exact reach_sibling_false rank hrank hcp.2 hcp'.1 hcp'.2 hwr
          · have := id_inj hid hw hcp'.1 hwid
            rw [this] at hwr
            exact reach_sibling_false rank hrank hcp'.2 hcp.1 hcp.2 hwr

theorem roots_visit_nodup {nodes : List MNode} (rank : String → Nat)
    (hid : (nodes.map (fun n => n.id)).Nodup)
    (hrank : ∀ n ∈ nodes, rank n.parent_id < rank n.id) (fuel : Nat)
    (roots : List String) (hroots : roots.Nodup)
    (hdisj : ∀ r ∈ roots, ∀ w ∈ nodes, w.id ≠ r) :
    (roots.flatMap (fun r => visitF fuel nodes (childrenOf nodes r))).Nodup := by
  rw [List.nodup_flatMap]
  refine ⟨fun r _ => visit_nodup rank hid hrank fuel r, ?_⟩
  apply List.Pairwise.imp_of_mem ?_ hroots
  intro r r' hr hr' hne x hx hx'
  have h1 : Reach nodes r x :=
    visit_mem_reach fuel _ _ (fun n hn => reach_children hn) x hx
  have h2 : Reach nodes r' x :=
    visit_mem_reach fuel _ _ (fun n hn => reach_children hn) x hx'
  rcases reach_comparable hid h1 h2 with heq | ⟨w, hw, hwid, _⟩ | ⟨w, hw, hwid, _⟩
  · exact hne heq
  · exact hdisj r hr w hw hwid
  · exact hdisj r' hr' w hw hwid

theorem sum_map_le_of_subperm {α : Type} (f : α → Nat) {l₁ l₂ : List α}
    (h : List.Subperm l₁ l₂) : (l₁.map f).sum ≤ (l₂.map f).sum := by
  rcases h with ⟨l, hp, hs⟩
  calc (l₁.map f).sum = (l.map f).sum := ((hp.map f).sum_eq).symm
    _ ≤ _ := sum_le_of_sublist (hs.map f)

theorem sum_map_flatMap {α β : Type} (g : α → List β) (h : β → Nat) (l : List α) :
    ((l.flatMap g).map h).sum = (l.map (fun x => ((g x).map h).sum)).sum := by
  induction l with
  | nil => rfl
  | cons x l ih => simp [List.flatMap_cons, List.map_append, List.sum_append, ih]

theorem flatMap_comp_map {α β γ : Type} (f : α → β) (g : β → List γ) (l : List α) :
    (l.map f).flatMap g = l.flatMap (fun x => g (f x)) := by
  induction l with
  | nil => rfl
  | cons x l ih => simp [List.flatMap_cons, ih]

theorem count_all_eq_sum (active obsolete : List Entry) (nodes : List MNode) :
    count_all_tokens active obsolete nodes =
      ((active ++ obsolete).map (fun e => estimate_tokens e.level_1)).sum +
        (nodes.map (fun n => estimate_tokens n.content)).sum := by
  show List.foldl _ 0 _ + List.foldl _ 0 _ = _
  rw [foldl_add_eq_sum, foldl_add_eq_sum]
  omega

/-- C1, amended.  On a well-formed snapshot (store-wide unique ids and an
acyclic `parent_id` forest, witnessed by a rank function as in §3 of the
spec), the V2 header's shown-token count never exceeds the total-token
count, for every configuration, scoring context and recursion fuel.  The
"equality only when nothing was capped or hidden" rider of the claim is
dropped: equality can also hold when every hidden item estimates to zero
tokens (see the counterexample). -/
theorem c1_shown_le_total (M : TimeModel) (cfg : V2Config)
    (active obsolete : List Entry) (nodes : List MNode) (fuel : Nat)
    (rank : String → Nat)
    (hids : ((active ++ obsolete).map (fun e => e.id) ++
      nodes.map (fun n => n.id)).Nodup)
    (hrank : ∀ n ∈ nodes, rank n.parent_id < rank n.id) :
    count_shown_tokens M fuel (some cfg) nodes (v2_shown M active obsolete cfg) ≤
      count_all_tokens active obsolete nodes := by
  obtain ⟨hE, hN, hD⟩ := List.nodup_append.mp hids
  rw [List.map_append] at hE
  obtain ⟨hEa, hEo, hDao⟩ := List.nodup_append.mp hE
  have hvoSub : List.Subperm (compute_v2_selection M active obsolete cfg).2.2 obsolete := by
    simp only [compute_v2_selection]
    exact (List.take_sublist _ _).subperm.trans (List.perm_insertionSort _ _).subperm
  have hvaSub : List.Sublist
      (active.filter (fun e => e.id ∈ (compute_v2_selection M active obsolete cfg).1))
      active := List.filter_sublist _
  have hshown : v2_shown M active obsolete cfg =
      active.filter (fun e => e.id ∈ (compute_v2_selection M active obsolete cfg).1) ++
        (compute_v2_selection M active obsolete cfg).2.2 := rfl
  rw [count_shown_eq_sum, count_all_eq_sum, sum_map_add]
  apply Nat.add_le_add
  · -- entry bodies: shown entries are a sub-permutation of all entries
    rw [hshown]
    simp only [List.map_append, List.sum_append]
    exact Nat.add_le_add (sum_le_of_sublist (hvaSub.map _))
      (sum_map_le_of_subperm _ hvoSub)
  · -- node contents: the visited nodes are pairwise distinct nodes of the
    -- snapshot, so their token sum is bounded by the total
    have hstep1 : ((v2_shown M active obsolete cfg).map
          (fun e => count_subtree_tokens fuel nodes
            (shown_children M (some cfg) nodes e))).sum ≤
        ((v2_shown M active obsolete cfg).map
          (fun e => count_subtree_tokens fuel nodes (childrenOf nodes e.id))).sum :=
      List.sum_le_sum (fun e _ =>
        count_subtree_mono fuel nodes (shown_children_sublist M (some cfg) nodes e))
    refine le_trans hstep1 ?_
    have hstep2 : ((v2_shown M active obsolete cfg).map
          (fun e => count_subtree_tokens fuel nodes (childrenOf nodes e.id))).sum =
        (((v2_shown M active obsolete cfg).map (fun e => e.id)).flatMap
            (fun r => visitF fuel nodes (childrenOf nodes r)) |>.map
          (fun n => estimate_tokens n.content)).sum := by
      rw [flatMap_comp_map, sum_map_flatMap]
      simp only [count_subtree_eq_visit]
    rw [hstep2]
    apply sum_map_le_of_subperm
    apply List.subperm_of_subset
    · -- the visited list has no duplicates
      apply roots_visit_nodup rank hN hrank fuel
      · -- shown ids are pairwise distinct
        rw [hshown, List.map_append]
        rw [List.nodup_append]
        refine ⟨hEa.sublist (hvaSub.map _), ?_, ?_⟩
        · have hsorted : List.Perm
              ((pySortDesc (fun e => weighted_access_score M e.access_count e.created_at)
                obsolete).map (fun e => e.id)) (obsolete.map (fun e => e.id)) :=
            (List.perm_insertionSort _ _).map _
          have hsortedN := (hsorted.nodup_iff).mpr hEo
          exact hsortedN.sublist ((List.take_sublist _ _).map _)
        · intro x hx hx'
          have hxa : x ∈ active.map (fun e => e.id) :=
            (hvaSub.map (fun e => e.id)).subset hx
          have hxo : x ∈ obsolete.map (fun e => e.id) := by
            rcases List.mem_map.mp hx' with ⟨e, he, rfl⟩
            exact List.mem_map.mpr ⟨e, vo_subset M active obsolete cfg e he, rfl⟩
          exact hDao hxa hxo
      · -- shown ids are never node ids
        intro r hr w hw hwid
        have hre : r ∈ (active ++ obsolete).map (fun e => e.id) := by
          rw [hshown, List.map_append] at hr
          rcases List.mem_append.mp hr with h | h
          · rcases List.mem_map.mp h with ⟨e, he, rfl⟩
            exact List.mem_map.mpr
              ⟨e, List.mem_append.mpr (Or.inl (List.mem_filter.mp he).1), rfl⟩
          · rcases List.mem_map.mp h with ⟨e, he, rfl⟩
            exact List.mem_map.mpr
              ⟨e, List.mem_append.mpr (Or.inr (vo_subset M active obsolete cfg e he)), rfl⟩
        exact hD hre (hwid ▸ List.mem_map.mpr ⟨w, hw, rfl⟩)
    · -- every visited node is a node of the snapshot
      intro x hx
      rcases List.mem_flatMap.mp hx with ⟨r, _, hxr⟩
      exact (visit_mem_reach fuel _ _ (fun n hn => reach_children hn) x hxr).mem_nodes

/-- A node attached to `entH`, for the C1 witness snapshot. -/
def nH : MNode := ⟨"w1", "H1", 1, none, "cccc", "2024-01-01", 0⟩

/-- C1 witness: the amended bound at a concrete one-record, one-node
snapshot with an explicit rank function. -/
theorem c1_shown_le_total_witness :
    count_shown_tokens Mna 2 (some ⟨3, 5, 3⟩) [nH]
        (v2_shown Mna [entH] [] ⟨3, 5, 3⟩) ≤
      count_all_tokens [entH] [] [nH] :=
  c1_shown_le_total Mna ⟨3, 5, 3⟩ [entH] [] [nH] 2
    (fun s => if s = "w1" then 1 else 0) (by decide) (by decide)

end Hmem
